import Mathlib

/-!
Verification development for the loop-field program (`fieldMy.py`).

The program computes the magnetic flux density of circular current loops:
`base_vectors` builds a frame from a loop normal, `magnetic_field` evaluates
the closed-form elliptic-integral solution at a batch of points, and a
top-level loop sums the contributions of several loops into an accumulator.

Embedding conventions:
* Python floats are modelled as exact real numbers wrapped in `Fl`, which
  tracks IEEE non-finiteness: `Fl.fin x` is a finite value, `Fl.nonfin`
  collapses IEEE `nan`, `+inf` and `-inf` into one non-finite state.  Every
  arithmetic operation below sends non-finite operands to `Fl.nonfin`; this
  agrees with IEEE semantics on all code paths modelled here, because in this
  program infinities are only created by division by zero and are then
  immediately consumed by `+`/`*` (where IEEE yields `inf` or `nan`, both
  non-finite) or by the explicit `isnan`/`isinf` substitution.  The only
  operation for which IEEE maps an infinity to a finite value, `arctan`, is
  applied solely to `x/y`, whose value is overridden whenever `y == 0`.
* The loop geometry (normal, centre, radius) consists of ordinary program
  constants; it is modelled over plain reals.
* `scipy.special.ellipe` / `ellipk` are external library functions consumed
  from the environment; they are parameters `E K : Fl → Fl` of the embedding,
  and theorems assume only the library facts they need (e.g. `K(0) = π/2`).
* `np.linalg.inv` is modelled as the exact 3×3 matrix inverse (adjugate over
  determinant); the spec allows any numerically equivalent inverse.
-/

noncomputable section

open scoped Classical

/-- A 3-vector of real numbers, used for loop geometry and frame vectors. -/
structure V3 where
  x : ℝ
  y : ℝ
  z : ℝ

/-- Componentwise difference of 3-vectors (`r - r0` in the source). -/
def V3.sub (a b : V3) : V3 := ⟨a.x - b.x, a.y - b.y, a.z - b.z⟩

instance : Sub V3 := ⟨V3.sub⟩

/-- `(v**2).sum(axis=-1)`: the sum of the squared components. -/
def sumsq (v : V3) : ℝ := v.x ^ 2 + v.y ^ 2 + v.z ^ 2

/-- Componentwise division of a vector by a scalar (`v / s` in numpy). -/
def divS (v : V3) (s : ℝ) : V3 := ⟨v.x / s, v.y / s, v.z / s⟩

/-- `np.cross a b`. -/
def cross (a b : V3) : V3 :=
  ⟨a.y * b.z - a.z * b.y, a.z * b.x - a.x * b.z, a.x * b.y - a.y * b.x⟩

/-- The unnormalized first tangent chosen by `base_vectors`:
`np.r_[n[2], 0, -n[0]]` when `np.abs(n[0]) == 1`, else `np.r_[0, n[2], -n[1]]`. -/
def tangent_raw (n : V3) : V3 :=
  if |n.x| = 1 then ⟨n.z, 0, -n.x⟩ else ⟨0, n.z, -n.y⟩

/-- `base_vectors(n)` from the source: both `n` and the chosen tangent are
divided by `(v**2).sum(axis=-1)` — the squared norm, exactly as written in the
source — and the third vector is `np.cross(n, l)`. Returns `(n, l, m)`. -/
def base_vectors (n : V3) : V3 × V3 × V3 :=
  let n' := divS n (sumsq n)
  let lr := tangent_raw n'
  let l := divS lr (sumsq lr)
  (n', l, cross n' l)

/-- A 3×3 matrix as a triple of rows. -/
def M3 : Type := V3 × V3 × V3

/-- Determinant of a 3×3 matrix. -/
def det3 (M : M3) : ℝ :=
  M.1.x * (M.2.1.y * M.2.2.z - M.2.1.z * M.2.2.y)
    - M.1.y * (M.2.1.x * M.2.2.z - M.2.1.z * M.2.2.x)
    + M.1.z * (M.2.1.x * M.2.2.y - M.2.1.y * M.2.2.x)

/-- `np.linalg.inv` for a 3×3 matrix: adjugate over determinant. -/
def inv3 (M : M3) : M3 :=
  (⟨(M.2.1.y * M.2.2.z - M.2.1.z * M.2.2.y) / det3 M,
    (M.1.z * M.2.2.y - M.1.y * M.2.2.z) / det3 M,
    (M.1.y * M.2.1.z - M.1.z * M.2.1.y) / det3 M⟩,
   ⟨(M.2.1.z * M.2.2.x - M.2.1.x * M.2.2.z) / det3 M,
    (M.1.x * M.2.2.z - M.1.z * M.2.2.x) / det3 M,
    (M.1.z * M.2.1.x - M.1.x * M.2.1.z) / det3 M⟩,
   ⟨(M.2.1.x * M.2.2.y - M.2.1.y * M.2.2.x) / det3 M,
    (M.1.y * M.2.2.x - M.1.x * M.2.2.y) / det3 M,
    (M.1.x * M.2.1.y - M.1.y * M.2.1.x) / det3 M⟩)

/-- `np.dot(v, M)` for a row vector `v`: component `j` is `Σ_i v_i · M_{i,j}`. -/
def rowMul (v : V3) (M : M3) : V3 :=
  ⟨v.x * M.1.x + v.y * M.2.1.x + v.z * M.2.2.x,
   v.x * M.1.y + v.y * M.2.1.y + v.z * M.2.2.y,
   v.x * M.1.z + v.y * M.2.1.z + v.z * M.2.2.z⟩

/-- A Python float: either a finite real or a non-finite value (`nan`/`inf`),
see the module docstring for the collapsing convention. -/
inductive Fl where
  | fin : ℝ → Fl
  | nonfin : Fl

namespace Fl

/-- IEEE addition: finite on finite operands, non-finite otherwise. -/
def add : Fl → Fl → Fl
  | fin a, fin b => fin (a + b)
  | _, _ => nonfin

/-- IEEE subtraction. -/
def sub : Fl → Fl → Fl
  | fin a, fin b => fin (a - b)
  | _, _ => nonfin

/-- IEEE multiplication; note `0 * inf = nan` and `0 * nan = nan`, so any
non-finite operand yields a non-finite result. -/
def mul : Fl → Fl → Fl
  | fin a, fin b => fin (a * b)
  | _, _ => nonfin

/-- IEEE negation. -/
def neg : Fl → Fl
  | fin a => fin (-a)
  | nonfin => nonfin

/-- IEEE division: division of a finite value by zero yields `inf` or `nan`
(both non-finite); any non-finite operand on the paths modelled here yields a
non-finite result. -/
def div : Fl → Fl → Fl
  | fin a, fin b => if b = 0 then nonfin else fin (a / b)
  | _, _ => nonfin

/-- `np.sqrt`: `nan` on negative or non-finite input (the program only takes
square roots of sums of squares, which are nonnegative). -/
def sqrtF : Fl → Fl
  | fin a => if a < 0 then nonfin else fin (Real.sqrt a)
  | nonfin => nonfin

/-- `np.cos` (non-finite on `nan`/`inf` input). -/
def cosF : Fl → Fl
  | fin a => fin (Real.cos a)
  | nonfin => nonfin

/-- `np.sin` (non-finite on `nan`/`inf` input). -/
def sinF : Fl → Fl
  | fin a => fin (Real.sin a)
  | nonfin => nonfin

/-- `np.arctan` on the values it is actually applied to in this program:
finite on finite input, `nan` on `nan` input.  (IEEE maps `±inf` to `±π/2`,
but in the source `arctan` is only applied to `x/y`, and the result is
overridden to `0` whenever `y == 0` — the only way `x/y` can be `±inf` with
finite data.) -/
def arctanF : Fl → Fl
  | fin a => fin (Real.arctan a)
  | nonfin => nonfin

/-- `v[np.isnan(v)] = 0; v[np.isinf(v)] = 0`: replace any non-finite value by
exactly `0`, keep finite values. -/
def subst : Fl → Fl
  | fin a => fin a
  | nonfin => fin 0

/-- `True` exactly on finite values. -/
def isFinB : Fl → Bool
  | fin _ => true
  | nonfin => false

instance : Add Fl := ⟨Fl.add⟩
instance : Sub Fl := ⟨Fl.sub⟩
instance : Mul Fl := ⟨Fl.mul⟩
instance : Neg Fl := ⟨Fl.neg⟩
instance : Div Fl := ⟨Fl.div⟩

end Fl

/-- A 3-vector of Python floats (one observation point, or one field value). -/
def FV3 : Type := Fl × Fl × Fl

/-- Componentwise sum of two float 3-vectors (`B += ...` acts componentwise). -/
def addFV3 (a b : FV3) : FV3 := (a.1 + b.1, a.2.1 + b.2.1, a.2.2 + b.2.2)

/-- Componentwise difference of two float 3-vectors (`r - r0`). -/
def subFV3 (a b : FV3) : FV3 := (a.1 - b.1, a.2.1 - b.2.1, a.2.2 - b.2.2)

/-- Embed an exact real 3-vector as a (finite) float 3-vector. -/
def finV3 (v : V3) : FV3 := (Fl.fin v.x, Fl.fin v.y, Fl.fin v.z)

/-- `np.dot(v, M)` for a row of floats against a real matrix. -/
def rowMulF (v : FV3) (M : M3) : FV3 :=
  (v.1 * Fl.fin M.1.x + v.2.1 * Fl.fin M.2.1.x + v.2.2 * Fl.fin M.2.2.x,
   v.1 * Fl.fin M.1.y + v.2.1 * Fl.fin M.2.1.y + v.2.2 * Fl.fin M.2.2.y,
   v.1 * Fl.fin M.1.z + v.2.1 * Fl.fin M.2.1.z + v.2.2 * Fl.fin M.2.2.z)

/-- The azimuth used by the source: `theta = np.arctan(x/y)` followed by
`theta[y==0] = 0`.  Note this is `arctan` of the quotient, not `atan2`. -/
def theta_of (x y : Fl) : Fl :=
  if y = Fl.fin 0 then Fl.fin 0 else Fl.arctanF (x / y)

/-- The elliptic parameter `m = (4*R*rho) / ((R + rho)**2 + z**2)`. -/
def ellipArg (R : ℝ) (rho z : Fl) : Fl :=
  (Fl.fin 4 * Fl.fin R * rho) /
    ((Fl.fin R + rho) * (Fl.fin R + rho) + z * z)

/-- `Bz` before the `isnan`/`isinf` substitution:
`1/sqrt((R+rho)**2+z**2) * (K + E*(R**2-rho**2-z**2)/((R-rho)**2+z**2))`. -/
def Bz_raw (E K : Fl → Fl) (R : ℝ) (rho z : Fl) : Fl :=
  (Fl.fin 1 / Fl.sqrtF ((Fl.fin R + rho) * (Fl.fin R + rho) + z * z)) *
    (K (ellipArg R rho z) +
      E (ellipArg R rho z) *
        ((Fl.fin R * Fl.fin R - rho * rho - z * z) /
          ((Fl.fin R - rho) * (Fl.fin R - rho) + z * z)))

/-- `Brho` before the `isnan`/`isinf` substitution:
`z/(rho*sqrt((R+rho)**2+z**2)) * (-K + E*(R**2+rho**2+z**2)/((R-rho)**2+z**2))`.
The leading factor divides by `rho`, which is the on-axis singularity. -/
def Brho_raw (E K : Fl → Fl) (R : ℝ) (rho z : Fl) : Fl :=
  (z / (rho * Fl.sqrtF ((Fl.fin R + rho) * (Fl.fin R + rho) + z * z))) *
    (-K (ellipArg R rho z) +
      E (ellipArg R rho z) *
        ((Fl.fin R * Fl.fin R + rho * rho + z * z) /
          ((Fl.fin R - rho) * (Fl.fin R - rho) + z * z)))

/-- The per-point local-frame field: cylindrical coordinates, elliptic
formulas, the zero-substitution of non-finite values, and the reconstruction
`B = np.c_[cos(theta)*Brho, sin(theta)*Brho, Bz]`. -/
def localField (E K : Fl → Fl) (R : ℝ) (x y z : Fl) : FV3 :=
  let rho := Fl.sqrtF (x * x + y * y)
  let th := theta_of x y
  let Brho := Fl.subst (Brho_raw E K R rho z)
  let Bz := Fl.subst (Bz_raw E K R rho z)
  (Fl.cosF th * Brho, Fl.sinF th * Brho, Bz)

/-- The change-of-basis matrix `trans = np.vstack((l, m, n))` built by
`magnetic_field` from `base_vectors`. -/
def transOf (n : V3) : M3 :=
  ((base_vectors n).2.1, (base_vectors n).2.2, (base_vectors n).1)

/-- `magnetic_field` at a single observation point `p`: translate by the loop
centre, move to the loop frame with `inv_trans`, evaluate the local field,
and rotate back with `trans`. -/
def magnetic_field_point (E K : Fl → Fl) (n r0 : V3) (R : ℝ) (p : FV3) : FV3 :=
  let q := rowMulF (subFV3 p (finV3 r0)) (inv3 (transOf n))
  rowMulF (localField E K R q.1 q.2.1 q.2.2) (transOf n)

/-- `magnetic_field(r, n, r0, R)`: the per-point evaluation mapped over the
batch of observation points, preserving order. -/
def magnetic_field (E K : Fl → Fl) (r : List FV3) (n r0 : V3) (R : ℝ) :
    List FV3 :=
  r.map (magnetic_field_point E K n r0 R)

/-- A current loop: radius, centre and normal, as supplied to
`magnetic_field`. -/
structure Loop where
  radius : ℝ
  center : V3
  normal : V3

/-- The error taxonomy named by the spec.  The source contains no validation
and never raises any of these. -/
inductive FieldError where
  | degenerateDirection : FieldError
  | invalidLoopGeometry : FieldError
  | invalidInput : FieldError

/-- `field_of_loop(points, loop)`: the spec's name for a single-loop
evaluation.  The Python function body contains no validation and no `raise`,
so the embedding, written with an explicit error channel to make the spec's
failure claims statable, always returns `Except.ok` of the computed field. -/
def field_of_loop (E K : Fl → Fl) (points : List FV3) (lp : Loop) :
    Except FieldError (List FV3) :=
  Except.ok (magnetic_field E K points lp.normal lp.center lp.radius)

/-- The top-level accumulation loop: `B = np.empty_like(r)` followed by
`B += magnetic_field(r, n, r0, R)` for each loop.  `np.empty_like` returns an
UNINITIALIZED array, so the accumulator's starting contents are indeterminate;
they are modelled by the explicit `init` argument.  A zero initialization
would correspond to `init` being all-zero vectors. -/
def total_field (E K : Fl → Fl) (init : List FV3) (points : List FV3)
    (loops : List Loop) : List FV3 :=
  loops.foldl
    (fun acc lp =>
      List.zipWith addFV3 acc
        (magnetic_field E K points lp.normal lp.center lp.radius))
    init

/-- The spec's `atan2(x, y)`: the angle in `(-π, π]` whose tangent is `x/y`,
with the quadrant chosen from the signs of `y` (as the cosine-like argument)
and `x` (as the sine-like argument).  Modelled from the spec's words for the
refinement comparison with `theta_of`; the source uses `arctan`, not `atan2`. -/
def specAtan2 (a b : ℝ) : ℝ :=
  if 0 < b then Real.arctan (a / b)
  else if b < 0 then
    (if 0 ≤ a then Real.arctan (a / b) + Real.pi
     else Real.arctan (a / b) - Real.pi)
  else if 0 < a then Real.pi / 2
  else if a < 0 then -(Real.pi / 2)
  else 0

namespace Fl

@[simp] theorem fin_add_fin (a b : ℝ) : fin a + fin b = fin (a + b) := rfl

@[simp] theorem add_nonfin (x : Fl) : x + nonfin = nonfin := by cases x <;> rfl

@[simp] theorem nonfin_add (x : Fl) : nonfin + x = nonfin := by cases x <;> rfl

@[simp] theorem fin_sub_fin (a b : ℝ) : fin a - fin b = fin (a - b) := rfl

@[simp] theorem sub_nonfin (x : Fl) : x - nonfin = nonfin := by cases x <;> rfl

@[simp] theorem nonfin_sub (x : Fl) : nonfin - x = nonfin := by cases x <;> rfl

@[simp] theorem fin_mul_fin (a b : ℝ) : fin a * fin b = fin (a * b) := rfl

@[simp] theorem mul_nonfin (x : Fl) : x * nonfin = nonfin := by cases x <;> rfl

@[simp] theorem nonfin_mul (x : Fl) : nonfin * x = nonfin := by cases x <;> rfl

@[simp] theorem neg_fin (a : ℝ) : -fin a = fin (-a) := rfl

@[simp] theorem neg_nonfin : -nonfin = nonfin := rfl

@[simp] theorem fin_div_fin (a b : ℝ) :
    fin a / fin b = if b = 0 then nonfin else fin (a / b) := rfl

@[simp] theorem div_nonfin (x : Fl) : x / nonfin = nonfin := by cases x <;> rfl

@[simp] theorem nonfin_div (x : Fl) : nonfin / x = nonfin := by cases x <;> rfl

@[simp] theorem sqrtF_fin (a : ℝ) :
    sqrtF (fin a) = if a < 0 then nonfin else fin (Real.sqrt a) := rfl

@[simp] theorem sqrtF_nonfin : sqrtF nonfin = nonfin := rfl

@[simp] theorem cosF_fin (a : ℝ) : cosF (fin a) = fin (Real.cos a) := rfl

@[simp] theorem cosF_nonfin : cosF nonfin = nonfin := rfl

@[simp] theorem sinF_fin (a : ℝ) : sinF (fin a) = fin (Real.sin a) := rfl

@[simp] theorem sinF_nonfin : sinF nonfin = nonfin := rfl

@[simp] theorem arctanF_fin (a : ℝ) : arctanF (fin a) = fin (Real.arctan a) := rfl

@[simp] theorem arctanF_nonfin : arctanF nonfin = nonfin := rfl

@[simp] theorem subst_fin (a : ℝ) : subst (fin a) = fin a := rfl

@[simp] theorem subst_nonfin : subst nonfin = fin 0 := rfl

@[simp] theorem isFinB_fin (a : ℝ) : isFinB (fin a) = true := rfl

@[simp] theorem isFinB_nonfin : isFinB nonfin = false := rfl

/-- The substitution step always produces a finite value. -/
@[simp] theorem isFinB_subst (x : Fl) : isFinB (subst x) = true := by
  cases x <;> rfl

end Fl

@[simp] theorem V3.sub_def (a b : V3) :
    a - b = ⟨a.x - b.x, a.y - b.y, a.z - b.z⟩ := rfl

@[simp] theorem subFV3_finV3 (a b : V3) :
    subFV3 (finV3 a) (finV3 b) = finV3 (a - b) := rfl

@[simp] theorem rowMulF_finV3 (v : V3) (M : M3) :
    rowMulF (finV3 v) M = finV3 (rowMul v M) := rfl

/-- The frame the source builds for the normal `(0,0,1)` used by the script's
coils: here the squared-norm division coincides with true normalization. -/
theorem base_vectors_unitZ :
    base_vectors ⟨0, 0, 1⟩ = (⟨0, 0, 1⟩, ⟨0, 1, 0⟩, ⟨-1, 0, 0⟩) := by
  norm_num [base_vectors, divS, sumsq, tangent_raw, cross, V3.mk.injEq,
    Prod.mk.injEq]

theorem transOf_unitZ :
    transOf ⟨0, 0, 1⟩ = (⟨0, 1, 0⟩, ⟨-1, 0, 0⟩, ⟨0, 0, 1⟩) := by
  simp [transOf, base_vectors_unitZ]

theorem inv3_unitZ :
    inv3 (transOf ⟨0, 0, 1⟩) = (⟨0, -1, 0⟩, ⟨1, 0, 0⟩, ⟨0, 0, 1⟩) := by
  rw [transOf_unitZ]
  norm_num [inv3, det3, V3.mk.injEq, Prod.mk.injEq]

/-- Unfolding equation for `magnetic_field_point`. -/
theorem magnetic_field_point_eq (E K : Fl → Fl) (n r0 : V3) (R : ℝ) (p : FV3) :
    magnetic_field_point E K n r0 R p =
      rowMulF
        (localField E K R
          (rowMulF (subFV3 p (finV3 r0)) (inv3 (transOf n))).1
          (rowMulF (subFV3 p (finV3 r0)) (inv3 (transOf n))).2.1
          (rowMulF (subFV3 p (finV3 r0)) (inv3 (transOf n))).2.2)
        (transOf n) := rfl

/-- Unfolding equation for `localField`. -/
theorem localField_eq (E K : Fl → Fl) (R : ℝ) (x y z : Fl) :
    localField E K R x y z =
      (Fl.cosF (theta_of x y) *
        Fl.subst (Brho_raw E K R (Fl.sqrtF (x * x + y * y)) z),
       Fl.sinF (theta_of x y) *
        Fl.subst (Brho_raw E K R (Fl.sqrtF (x * x + y * y)) z),
       Fl.subst (Bz_raw E K R (Fl.sqrtF (x * x + y * y)) z)) := rfl

/-- Evaluation of the full pipeline for a unit loop at the origin with normal
`(0,0,1)`, at the observation point `(0,0,0)`: assuming only the library facts
`E(0) = K(0) = π/2`, the program returns the field `(0, 0, π)`. -/
theorem center_field_aux (E K : Fl → Fl)
    (hE : E (Fl.fin 0) = Fl.fin (Real.pi / 2))
    (hK : K (Fl.fin 0) = Fl.fin (Real.pi / 2)) :
    magnetic_field_point E K ⟨0, 0, 1⟩ ⟨0, 0, 0⟩ 1 (finV3 ⟨0, 0, 0⟩) =
      (Fl.fin 0, Fl.fin 0, Fl.fin Real.pi) := by
  have hq : rowMulF (subFV3 (finV3 ⟨0, 0, 0⟩) (finV3 ⟨0, 0, 0⟩))
      (inv3 (transOf ⟨0, 0, 1⟩)) = (Fl.fin 0, Fl.fin 0, Fl.fin 0) := by
    rw [subFV3_finV3, rowMulF_finV3, inv3_unitZ]
    norm_num [rowMul, finV3, Prod.mk.injEq]
  have hrho : Fl.sqrtF (Fl.fin 0 * Fl.fin 0 + Fl.fin 0 * Fl.fin 0) = Fl.fin 0 := by
    norm_num
  have hm : ellipArg 1 (Fl.fin 0) (Fl.fin 0) = Fl.fin 0 := by
    norm_num [ellipArg]
  have hBz : Fl.subst (Bz_raw E K 1 (Fl.fin 0) (Fl.fin 0)) = Fl.fin Real.pi := by
    norm_num [Bz_raw, hm, hK, hE, Real.sqrt_one, add_halves]
  have hBr : Fl.subst (Brho_raw E K 1 (Fl.fin 0) (Fl.fin 0)) = Fl.fin 0 := by
    norm_num [Brho_raw, hm, hK, hE, Real.sqrt_one]
  have hth : theta_of (Fl.fin 0) (Fl.fin 0) = Fl.fin 0 := by simp [theta_of]
  rw [magnetic_field_point_eq, hq]
  simp only [localField_eq, Prod.fst, Prod.snd]
  rw [hrho, hth, hBz, hBr, transOf_unitZ]
  norm_num [rowMulF, Real.cos_zero, Real.sin_zero, Prod.mk.injEq]

end

/-- Claim C1 (amended): for a loop of radius `1` centered at the origin with
normal `(0,0,1)`, given the library values `E(0) = K(0) = π/2`, the field the
program returns at `(0,0,0)` has x- and y-components exactly `0` and axial
component exactly `π` (the textbook `μ0·I/(2R)` expressed in the program's
`μ0·I/(2π·d)` units), not `1`. -/
theorem center_field_eq_pi (E K : Fl → Fl)
    (hE : E (Fl.fin 0) = Fl.fin (Real.pi / 2))
    (hK : K (Fl.fin 0) = Fl.fin (Real.pi / 2)) :
    magnetic_field_point E K ⟨0, 0, 1⟩ ⟨0, 0, 0⟩ 1 (finV3 ⟨0, 0, 0⟩) =
      (Fl.fin 0, Fl.fin 0, Fl.fin Real.pi) :=
  center_field_aux E K hE hK

/-- Claim C1, witness: the hypotheses hold for the constant elliptic-integral
values `π/2` and the conclusion evaluates. -/
theorem center_field_eq_pi_witness :
    (fun _ : Fl => Fl.fin (Real.pi / 2)) (Fl.fin 0) = Fl.fin (Real.pi / 2) ∧
    magnetic_field_point (fun _ => Fl.fin (Real.pi / 2))
        (fun _ => Fl.fin (Real.pi / 2)) ⟨0, 0, 1⟩ ⟨0, 0, 0⟩ 1
        (finV3 ⟨0, 0, 0⟩) =
      (Fl.fin 0, Fl.fin 0, Fl.fin Real.pi) :=
  ⟨rfl, center_field_eq_pi _ _ rfl rfl⟩

/-- Claim C1, counterexample to the claim as stated: at the center of the unit
loop the axial component of the returned field is `π`, not `1` (the library
values `E(0) = K(0) = π/2` are instantiated as constants, which agree with
`scipy` at the only argument used, `m = 0`). -/
theorem center_field_ne_one :
    magnetic_field_point (fun _ => Fl.fin (Real.pi / 2))
        (fun _ => Fl.fin (Real.pi / 2)) ⟨0, 0, 1⟩ ⟨0, 0, 0⟩ 1
        (finV3 ⟨0, 0, 0⟩) ≠
      (Fl.fin 0, Fl.fin 0, Fl.fin 1) := by
  rw [center_field_aux _ _ rfl rfl]
  intro h
  injection h with h1 h23
  injection h23 with h2 h3
  injection h3 with hval
  have := Real.pi_gt_three
  linarith

/-- Claim C2 (code bug, evaluated at the failing input): the accumulator is
`np.empty_like(r)` — uninitialized memory, modelled by the explicit `init`
argument.  With an empty loop collection, `total_field` returns that
uninitialized content unchanged; if the memory holds `(1,0,0)`, the result is
`(1,0,0)`, which is not the all-zero vector the claim promises. -/
theorem total_field_empty_returns_uninitialized :
    total_field (fun _ => Fl.fin 0) (fun _ => Fl.fin 0)
        [(Fl.fin 1, Fl.fin 0, Fl.fin 0)] [finV3 ⟨0, 0, 0⟩] [] =
      [(Fl.fin 1, Fl.fin 0, Fl.fin 0)] ∧
    (Fl.fin (1 : ℝ), Fl.fin (0 : ℝ), Fl.fin (0 : ℝ)) ≠
      (Fl.fin 0, Fl.fin 0, Fl.fin 0) := by
  refine ⟨rfl, ?_⟩
  intro h
  injection h with h1 h23
  injection h1 with hval
  exact one_ne_zero hval

/-- With the elliptic integrals instantiated as the constant `0`, a unit loop
at the origin contributes the zero field at the origin. -/
theorem field_zeroEK_origin :
    magnetic_field_point (fun _ => Fl.fin 0) (fun _ => Fl.fin 0)
        ⟨0, 0, 1⟩ ⟨0, 0, 0⟩ 1 (finV3 ⟨0, 0, 0⟩) =
      (Fl.fin 0, Fl.fin 0, Fl.fin 0) := by
  have hq : rowMulF (subFV3 (finV3 ⟨0, 0, 0⟩) (finV3 ⟨0, 0, 0⟩))
      (inv3 (transOf ⟨0, 0, 1⟩)) = (Fl.fin 0, Fl.fin 0, Fl.fin 0) := by
    rw [subFV3_finV3, rowMulF_finV3, inv3_unitZ]
    norm_num [rowMul, finV3, Prod.mk.injEq]
  have hrho : Fl.sqrtF (Fl.fin 0 * Fl.fin 0 + Fl.fin 0 * Fl.fin 0) = Fl.fin 0 := by
    norm_num
  have hBz : Fl.subst (Bz_raw (fun _ => Fl.fin 0) (fun _ => Fl.fin 0) 1
      (Fl.fin 0) (Fl.fin 0)) = Fl.fin 0 := by
    norm_num [Bz_raw, ellipArg, Real.sqrt_one]
  have hBr : Fl.subst (Brho_raw (fun _ => Fl.fin 0) (fun _ => Fl.fin 0) 1
      (Fl.fin 0) (Fl.fin 0)) = Fl.fin 0 := by
    norm_num [Brho_raw, ellipArg, Real.sqrt_one]
  have hth : theta_of (Fl.fin 0) (Fl.fin 0) = Fl.fin 0 := by simp [theta_of]
  rw [magnetic_field_point_eq, hq]
  simp only [localField_eq, Prod.fst, Prod.snd]
  rw [hrho, hth, hBz, hBr, transOf_unitZ]
  norm_num [rowMulF, Real.cos_zero, Real.sin_zero, Prod.mk.injEq]

/-- With the elliptic integrals instantiated as the constant `0`, a unit loop
centered at `(0,0,3)` also contributes the zero field at the origin. -/
theorem field_zeroEK_shifted :
    magnetic_field_point (fun _ => Fl.fin 0) (fun _ => Fl.fin 0)
        ⟨0, 0, 1⟩ ⟨0, 0, 3⟩ 1 (finV3 ⟨0, 0, 0⟩) =
      (Fl.fin 0, Fl.fin 0, Fl.fin 0) := by
  have hq : rowMulF (subFV3 (finV3 ⟨0, 0, 0⟩) (finV3 ⟨0, 0, 3⟩))
      (inv3 (transOf ⟨0, 0, 1⟩)) = (Fl.fin 0, Fl.fin 0, Fl.fin (-3)) := by
    rw [subFV3_finV3, rowMulF_finV3, inv3_unitZ]
    norm_num [rowMul, finV3, Prod.mk.injEq]
  have hrho : Fl.sqrtF (Fl.fin 0 * Fl.fin 0 + Fl.fin 0 * Fl.fin 0) = Fl.fin 0 := by
    norm_num
  have hBz : Fl.subst (Bz_raw (fun _ => Fl.fin 0) (fun _ => Fl.fin 0) 1
      (Fl.fin 0) (Fl.fin (-3))) = Fl.fin 0 := by
    norm_num [Bz_raw, ellipArg, Real.sqrt_eq_zero']
  have hBr : Fl.subst (Brho_raw (fun _ => Fl.fin 0) (fun _ => Fl.fin 0) 1
      (Fl.fin 0) (Fl.fin (-3))) = Fl.fin 0 := by
    norm_num [Brho_raw, ellipArg, Real.sqrt_eq_zero']
  have hth : theta_of (Fl.fin 0) (Fl.fin 0) = Fl.fin 0 := by simp [theta_of]
  rw [magnetic_field_point_eq, hq]
  simp only [localField_eq, Prod.fst, Prod.snd]
  rw [hrho, hth, hBz, hBr, transOf_unitZ]
  norm_num [rowMulF, Real.cos_zero, Real.sin_zero, Prod.mk.injEq]

/-- Claim C3 (code bug, evaluated at the failing input): the accumulation
starts from `np.empty_like(r)` (uninitialized memory, modelled by `init`), so
`total_field(points, [A, B])` equals `init + field(A) + field(B)` rather than
`field(A) + field(B)`.  With the uninitialized slot holding `(1,0,0)` and both
loop contributions evaluating to zero, `total_field` returns `(1,0,0)` while
the claimed element-wise sum is `(0,0,0)`. -/
theorem total_field_two_loops_ne_pairwise_sum :
    total_field (fun _ => Fl.fin 0) (fun _ => Fl.fin 0)
        [(Fl.fin 1, Fl.fin 0, Fl.fin 0)] [finV3 ⟨0, 0, 0⟩]
        [⟨1, ⟨0, 0, 0⟩, ⟨0, 0, 1⟩⟩, ⟨1, ⟨0, 0, 3⟩, ⟨0, 0, 1⟩⟩] ≠
      List.zipWith addFV3
        (magnetic_field (fun _ => Fl.fin 0) (fun _ => Fl.fin 0)
          [finV3 ⟨0, 0, 0⟩] ⟨0, 0, 1⟩ ⟨0, 0, 0⟩ 1)
        (magnetic_field (fun _ => Fl.fin 0) (fun _ => Fl.fin 0)
          [finV3 ⟨0, 0, 0⟩] ⟨0, 0, 1⟩ ⟨0, 0, 3⟩ 1) := by
  have hmA : magnetic_field (fun _ => Fl.fin 0) (fun _ => Fl.fin 0)
      [finV3 ⟨0, 0, 0⟩] ⟨0, 0, 1⟩ ⟨0, 0, 0⟩ 1 =
      [(Fl.fin 0, Fl.fin 0, Fl.fin 0)] := by
    simp only [magnetic_field, List.map_cons, List.map_nil, field_zeroEK_origin]
  have hmB : magnetic_field (fun _ => Fl.fin 0) (fun _ => Fl.fin 0)
      [finV3 ⟨0, 0, 0⟩] ⟨0, 0, 1⟩ ⟨0, 0, 3⟩ 1 =
      [(Fl.fin 0, Fl.fin 0, Fl.fin 0)] := by
    simp only [magnetic_field, List.map_cons, List.map_nil, field_zeroEK_shifted]
  simp only [total_field, List.foldl_cons, List.foldl_nil]
  rw [hmA, hmB]
  simp only [List.zipWith_cons_cons, List.zipWith_nil_left, addFV3,
    Fl.fin_add_fin]
  intro h
  injection h with hhead htail
  injection hhead with h1 hrest
  injection h1 with hval
  norm_num at hval

/-- Claim C4 (code bug, evaluated at the failing input): `base_vectors` divides
each vector by its squared norm (`(v**2).sum()`, the `sqrt` is missing), so for
the direction `(1,1,0)` the returned basis is
`((1/2,1/2,0), (0,0,-2), (-1,1,0))`: the first vector is not the input
normalized to unit length, the tangent is not unit, and
`tangent1 × tangent2 = (2,2,0)` is not the returned normal. -/
theorem base_vectors_not_orthonormal :
    base_vectors ⟨1, 1, 0⟩ = (⟨1/2, 1/2, 0⟩, ⟨0, 0, -2⟩, ⟨-1, 1, 0⟩) ∧
    sumsq (base_vectors ⟨1, 1, 0⟩).1 ≠ 1 ∧
    sumsq (base_vectors ⟨1, 1, 0⟩).2.1 ≠ 1 ∧
    cross (base_vectors ⟨1, 1, 0⟩).2.1 (base_vectors ⟨1, 1, 0⟩).2.2 ≠
      (base_vectors ⟨1, 1, 0⟩).1 := by
  have habs : |(1 : ℝ)/2| = 1/2 := abs_of_pos (by norm_num)
  have h1 : divS ⟨1, 1, 0⟩ (sumsq ⟨1, 1, 0⟩) = ⟨1/2, 1/2, 0⟩ := by
    norm_num [divS, sumsq, V3.mk.injEq]
  have h2 : tangent_raw ⟨1/2, 1/2, 0⟩ = ⟨0, 0, -(1/2)⟩ := by
    rw [tangent_raw, if_neg]
    norm_num [habs]
  have h3 : divS ⟨0, 0, -(1/2)⟩ (sumsq ⟨0, 0, -(1/2)⟩) = ⟨0, 0, -2⟩ := by
    norm_num [divS, sumsq, V3.mk.injEq]
  have h4 : cross ⟨1/2, 1/2, 0⟩ ⟨0, 0, -2⟩ = ⟨-1, 1, 0⟩ := by
    norm_num [cross, V3.mk.injEq]
  have hb : base_vectors ⟨1, 1, 0⟩ = (⟨1/2, 1/2, 0⟩, ⟨0, 0, -2⟩, ⟨-1, 1, 0⟩) := by
    simp only [base_vectors]
    rw [h1, h2, h3, h4]
  refine ⟨hb, ?_, ?_, ?_⟩
  · rw [hb]; norm_num [sumsq]
  · rw [hb]; norm_num [sumsq]
  · rw [hb]
    norm_num [cross, V3.mk.injEq]

/-- Claim C5 (code bug, evaluated at the failing input): the branch test
`np.abs(n[0]) == 1` is applied after the squared-norm division, so the
non-unit x-aligned direction `(2,0,0)` (which becomes `(1/2,0,0)`) takes the
generic branch and the chosen tangent, before normalization, is exactly the
zero vector. -/
theorem tangent_raw_zero_for_x_axis :
    tangent_raw (divS ⟨2, 0, 0⟩ (sumsq ⟨2, 0, 0⟩)) = ⟨0, 0, 0⟩ ∧
    (V3.mk 2 0 0 ≠ ⟨0, 0, 0⟩) := by
  constructor
  · have h1 : divS ⟨2, 0, 0⟩ (sumsq ⟨2, 0, 0⟩) = ⟨1/2, 0, 0⟩ := by
      norm_num [divS, sumsq, V3.mk.injEq]
    rw [h1, tangent_raw, if_neg]
    · norm_num [V3.mk.injEq]
    · rw [show |(1 : ℝ)/2| = 1/2 from abs_of_pos (by norm_num)]
      norm_num
  · intro h
    injection h with hx
    norm_num at hx

/-- The `isnan`/`isinf` substitution always yields a finite value. -/
theorem Fl.subst_eq_fin (v : Fl) : ∃ a, Fl.subst v = Fl.fin a := by
  cases v with
  | fin a => exact ⟨a, rfl⟩
  | nonfin => exact ⟨0, rfl⟩

/-- On the loop's axis the local radius is `0`, the leading factor of `Brho`
divides by `rho = 0`, the result is non-finite, and the substitution replaces
it with exactly `0` — for every radius, axial offset and elliptic library. -/
theorem Brho_on_axis (E K : Fl → Fl) (R t : ℝ) :
    Fl.subst (Brho_raw E K R (Fl.fin 0) (Fl.fin t)) = Fl.fin 0 := by
  simp only [Brho_raw]
  cases h : Fl.sqrtF ((Fl.fin R + Fl.fin 0) * (Fl.fin R + Fl.fin 0) +
      Fl.fin t * Fl.fin t) with
  | fin s => simp [zero_mul]
  | nonfin => simp

/-- Claim C6: for every observation point whose local coordinates put it on
the loop's axis (local `x = y = 0`, i.e. `rho = 0`), and for every elliptic
library and every radius, the evaluation does not fail: the non-finite `Brho`
produced by the division by `rho = 0` is replaced by exactly `0` by the
substitution step, and every component of the returned field is finite.  The
hypotheses on `n` record that the loop's frame is non-degenerate (otherwise
`np.linalg.inv` itself would be outside the model). -/
theorem on_axis_substitution_and_finiteness
    (E K : Fl → Fl) (n r0 p : V3) (R : ℝ)
    (_hn : n ≠ ⟨0, 0, 0⟩)
    (_hl : tangent_raw (divS n (sumsq n)) ≠ ⟨0, 0, 0⟩)
    (hx : (rowMul (p - r0) (inv3 (transOf n))).x = 0)
    (hy : (rowMul (p - r0) (inv3 (transOf n))).y = 0) :
    Fl.subst (Brho_raw E K R (Fl.fin 0)
        (Fl.fin (rowMul (p - r0) (inv3 (transOf n))).z)) = Fl.fin 0 ∧
    (magnetic_field_point E K n r0 R (finV3 p)).1.isFinB = true ∧
    (magnetic_field_point E K n r0 R (finV3 p)).2.1.isFinB = true ∧
    (magnetic_field_point E K n r0 R (finV3 p)).2.2.isFinB = true := by
  have hth : theta_of (Fl.fin 0) (Fl.fin 0) = Fl.fin 0 := by simp [theta_of]
  have hrho : Fl.sqrtF (Fl.fin 0 * Fl.fin 0 + Fl.fin 0 * Fl.fin 0) = Fl.fin 0 := by
    norm_num
  obtain ⟨bz, hbz⟩ := Fl.subst_eq_fin
    (Bz_raw E K R (Fl.fin 0) (Fl.fin ((rowMul (p - r0) (inv3 (transOf n))).z)))
  have hq : rowMulF (subFV3 (finV3 p) (finV3 r0)) (inv3 (transOf n)) =
      (Fl.fin 0, Fl.fin 0, Fl.fin ((rowMul (p - r0) (inv3 (transOf n))).z)) := by
    rw [subFV3_finV3, rowMulF_finV3]
    simp only [finV3]
    rw [hx, hy]
  refine ⟨Brho_on_axis E K R _, ?_, ?_, ?_⟩
  all_goals
    (rw [magnetic_field_point_eq, hq]
     simp only [localField_eq, Prod.fst, Prod.snd]
     rw [hrho, hth, Brho_on_axis, hbz]
     simp [rowMulF])

/-- Claim C6, witness: the loop of radius `1` at the origin with normal
`(0,0,1)` and the on-axis observation point `(0,0,5)` satisfy the hypotheses,
and the conclusion evaluates there. -/
theorem on_axis_substitution_and_finiteness_witness :
    (V3.mk 0 0 1 ≠ ⟨0, 0, 0⟩) ∧
    tangent_raw (divS ⟨0, 0, 1⟩ (sumsq ⟨0, 0, 1⟩)) ≠ ⟨0, 0, 0⟩ ∧
    (rowMul (V3.mk 0 0 5 - ⟨0, 0, 0⟩) (inv3 (transOf ⟨0, 0, 1⟩))).x = 0 ∧
    (rowMul (V3.mk 0 0 5 - ⟨0, 0, 0⟩) (inv3 (transOf ⟨0, 0, 1⟩))).y = 0 ∧
    (Fl.subst (Brho_raw (fun _ => Fl.nonfin) (fun _ => Fl.nonfin) 1 (Fl.fin 0)
        (Fl.fin (rowMul (V3.mk 0 0 5 - ⟨0, 0, 0⟩)
          (inv3 (transOf ⟨0, 0, 1⟩))).z)) = Fl.fin 0 ∧
     (magnetic_field_point (fun _ => Fl.nonfin) (fun _ => Fl.nonfin)
        ⟨0, 0, 1⟩ ⟨0, 0, 0⟩ 1 (finV3 ⟨0, 0, 5⟩)).1.isFinB = true ∧
     (magnetic_field_point (fun _ => Fl.nonfin) (fun _ => Fl.nonfin)
        ⟨0, 0, 1⟩ ⟨0, 0, 0⟩ 1 (finV3 ⟨0, 0, 5⟩)).2.1.isFinB = true ∧
     (magnetic_field_point (fun _ => Fl.nonfin) (fun _ => Fl.nonfin)
        ⟨0, 0, 1⟩ ⟨0, 0, 0⟩ 1 (finV3 ⟨0, 0, 5⟩)).2.2.isFinB = true) := by
  have hn : V3.mk 0 0 1 ≠ ⟨0, 0, 0⟩ := by
    intro h
    injection h with h1 h2 h3
    exact one_ne_zero h3
  have hl : tangent_raw (divS ⟨0, 0, 1⟩ (sumsq ⟨0, 0, 1⟩)) ≠ ⟨0, 0, 0⟩ := by
    have h1 : divS ⟨0, 0, 1⟩ (sumsq ⟨0, 0, 1⟩) = ⟨0, 0, 1⟩ := by
      norm_num [divS, sumsq, V3.mk.injEq]
    rw [h1, tangent_raw, if_neg]
    · intro h
      injection h with h1 h2 h3
      exact one_ne_zero h2
    · norm_num
  have hx : (rowMul (V3.mk 0 0 5 - ⟨0, 0, 0⟩) (inv3 (transOf ⟨0, 0, 1⟩))).x = 0 := by
    rw [inv3_unitZ]
    norm_num [rowMul]
  have hy : (rowMul (V3.mk 0 0 5 - ⟨0, 0, 0⟩) (inv3 (transOf ⟨0, 0, 1⟩))).y = 0 := by
    rw [inv3_unitZ]
    norm_num [rowMul]
  exact ⟨hn, hl, hx, hy,
    on_axis_substitution_and_finiteness (fun _ => Fl.nonfin) (fun _ => Fl.nonfin)
      ⟨0, 0, 1⟩ ⟨0, 0, 0⟩ ⟨0, 0, 5⟩ 1 hn hl hx hy⟩

/-- Claim C7 (amended): the azimuth the source computes is `arctan(x/y)`
(principal branch), fixed to exactly `0` whenever `y == 0` — including when
`x` is non-zero.  This agrees with the spec's `atan2(x, y)` exactly when
`0 < y`, and differs from it (by `π`) whenever `y < 0`.  The local field is
then reconstructed as `cos(theta)*Brho` and `sin(theta)*Brho` (see
`localField`). -/
theorem theta_convention (x y : ℝ) :
    (y = 0 → theta_of (Fl.fin x) (Fl.fin y) = Fl.fin 0) ∧
    (y ≠ 0 → theta_of (Fl.fin x) (Fl.fin y) = Fl.fin (Real.arctan (x / y))) ∧
    (0 < y → theta_of (Fl.fin x) (Fl.fin y) = Fl.fin (specAtan2 x y)) ∧
    (y < 0 → theta_of (Fl.fin x) (Fl.fin y) ≠ Fl.fin (specAtan2 x y)) ∧
    (∀ (E K : Fl → Fl) (R : ℝ) (z : Fl),
      (localField E K R (Fl.fin x) (Fl.fin y) z).1 =
        Fl.cosF (theta_of (Fl.fin x) (Fl.fin y)) *
          Fl.subst (Brho_raw E K R
            (Fl.sqrtF (Fl.fin x * Fl.fin x + Fl.fin y * Fl.fin y)) z) ∧
      (localField E K R (Fl.fin x) (Fl.fin y) z).2.1 =
        Fl.sinF (theta_of (Fl.fin x) (Fl.fin y)) *
          Fl.subst (Brho_raw E K R
            (Fl.sqrtF (Fl.fin x * Fl.fin x + Fl.fin y * Fl.fin y)) z)) := by
  refine ⟨?_, ?_, ?_, ?_, fun E K R z => ⟨rfl, rfl⟩⟩
  · intro h
    simp [theta_of, h]
  · intro h
    simp [theta_of, h]
  · intro h
    have hne : y ≠ 0 := ne_of_gt h
    simp [theta_of, hne, specAtan2, h]
  · intro h
    have hne : y ≠ 0 := ne_of_lt h
    have ht : theta_of (Fl.fin x) (Fl.fin y) = Fl.fin (Real.arctan (x / y)) := by
      simp [theta_of, hne]
    rw [ht]
    intro heq
    injection heq with hv
    have hpi := Real.pi_pos
    rcases le_or_lt 0 x with hx | hx
    · simp only [specAtan2, if_neg (show ¬(0 < y) by linarith), if_pos h,
        if_pos hx] at hv
      linarith
    · simp only [specAtan2, if_neg (show ¬(0 < y) by linarith), if_pos h,
        if_neg (show ¬(0 ≤ x) by linarith)] at hv
      linarith

/-- Claim C7, witness: at the local point `(1, 2)` (where `0 < y`) the code's
azimuth agrees with the spec's `atan2`. -/
theorem theta_convention_witness :
    (0 : ℝ) < 2 ∧ theta_of (Fl.fin 1) (Fl.fin 2) = Fl.fin (specAtan2 1 2) :=
  ⟨by norm_num, (theta_convention 1 2).2.2.1 (by norm_num)⟩

/-- Claim C7, counterexample to the claim as stated: at the local point
`(x, y) = (1, -1)` the code computes `arctan(1/(-1)) = -π/4`, while
`atan2(1, -1) = 3π/4`; they differ by `π`. -/
theorem theta_code_ne_spec_atan2 :
    theta_of (Fl.fin 1) (Fl.fin (-1)) ≠ Fl.fin (specAtan2 1 (-1)) := by
  have ht : theta_of (Fl.fin 1) (Fl.fin (-1)) = Fl.fin (Real.arctan (1 / (-1))) := by
    simp [theta_of]
  have hs : specAtan2 1 (-1) = Real.arctan (1 / (-1)) + Real.pi := by
    norm_num [specAtan2]
  rw [ht, hs]
  intro heq
  injection heq with hv
  have hpi := Real.pi_pos
  norm_num at hv
  linarith

/-- Claim C8 (amended): `field_of_loop` performs no radius validation and
never fails: for every loop, in particular any with radius `≤ 0`, it returns
`Except.ok` of the computed per-point fields, one per input point. -/
theorem field_of_loop_never_fails (E K : Fl → Fl) (points : List FV3)
    (lp : Loop) (_hR : lp.radius ≤ 0) :
    field_of_loop E K points lp =
      Except.ok (magnetic_field E K points lp.normal lp.center lp.radius) ∧
    (magnetic_field E K points lp.normal lp.center lp.radius).length =
      points.length := by
  refine ⟨rfl, ?_⟩
  simp [magnetic_field]

/-- Claim C8, witness: the radius `-1` loop satisfies the hypothesis and the
conclusion evaluates. -/
theorem field_of_loop_never_fails_witness :
    (Loop.mk (-1) ⟨0, 0, 0⟩ ⟨0, 0, 1⟩).radius ≤ 0 ∧
    (field_of_loop (fun _ => Fl.fin 0) (fun _ => Fl.fin 0)
        [finV3 ⟨2, 0, 0⟩] ⟨-1, ⟨0, 0, 0⟩, ⟨0, 0, 1⟩⟩ =
      Except.ok (magnetic_field (fun _ => Fl.fin 0) (fun _ => Fl.fin 0)
        [finV3 ⟨2, 0, 0⟩] (Loop.mk (-1) ⟨0, 0, 0⟩ ⟨0, 0, 1⟩).normal
        (Loop.mk (-1) ⟨0, 0, 0⟩ ⟨0, 0, 1⟩).center
        (Loop.mk (-1) ⟨0, 0, 0⟩ ⟨0, 0, 1⟩).radius) ∧
     (magnetic_field (fun _ => Fl.fin 0) (fun _ => Fl.fin 0)
        [finV3 ⟨2, 0, 0⟩] (Loop.mk (-1) ⟨0, 0, 0⟩ ⟨0, 0, 1⟩).normal
        (Loop.mk (-1) ⟨0, 0, 0⟩ ⟨0, 0, 1⟩).center
        (Loop.mk (-1) ⟨0, 0, 0⟩ ⟨0, 0, 1⟩).radius).length =
      [finV3 ⟨2, 0, 0⟩].length) :=
  ⟨by show (-1 : ℝ) ≤ 0; norm_num,
   field_of_loop_never_fails _ _ _ _ (by show (-1 : ℝ) ≤ 0; norm_num)⟩

/-- Claim C8, counterexample to the claim as stated: `field_of_loop` applied
to a loop of radius `-1` does not fail with `InvalidLoopGeometryError` — the
source has no validation and no raise, so the call returns a computed result. -/
theorem invalid_radius_not_rejected :
    field_of_loop (fun _ => Fl.fin 0) (fun _ => Fl.fin 0)
        [finV3 ⟨2, 0, 0⟩] ⟨-1, ⟨0, 0, 0⟩, ⟨0, 0, 1⟩⟩ ≠
      Except.error FieldError.invalidLoopGeometry := by
  intro h
  simp only [field_of_loop] at h
  exact Except.noConfusion h

/-- Claim C9 (amended): `field_of_loop` performs no input validation; a point
with a `nan` coordinate produces no error.  The coordinate transform smears
the `nan` into all three local coordinates, the substitution zeroes the
non-finite `Brho`/`Bz`, but the `nan` azimuth re-enters through
`cos(theta)*Brho` / `sin(theta)*Brho`, and the rotated result is non-finite in
every component — returned to the caller as a value, not an error.  The
hypotheses on `E`/`K` are the `scipy` facts `ellipe(nan) = ellipk(nan) = nan`;
those on `n` record a non-degenerate frame. -/
theorem nan_point_propagates (E K : Fl → Fl) (n r0 : V3) (R b c : ℝ)
    (hE : E Fl.nonfin = Fl.nonfin) (hK : K Fl.nonfin = Fl.nonfin)
    (_hn : n ≠ ⟨0, 0, 0⟩)
    (_hl : tangent_raw (divS n (sumsq n)) ≠ ⟨0, 0, 0⟩) :
    magnetic_field_point E K n r0 R (Fl.nonfin, Fl.fin b, Fl.fin c) =
      (Fl.nonfin, Fl.nonfin, Fl.nonfin) := by
  rw [magnetic_field_point_eq]
  have hq : rowMulF (subFV3 (Fl.nonfin, Fl.fin b, Fl.fin c) (finV3 r0))
      (inv3 (transOf n)) = (Fl.nonfin, Fl.nonfin, Fl.nonfin) := by
    simp [subFV3, finV3, rowMulF]
  rw [hq]
  simp only [localField_eq, Prod.fst, Prod.snd]
  simp [theta_of, Bz_raw, Brho_raw, ellipArg, hE, hK, rowMulF]

/-- Claim C9, witness: the hypotheses hold for the constant-`nan` library and
the unit loop, and the conclusion evaluates for the input point
`(nan, 0, 0)`. -/
theorem nan_point_propagates_witness :
    ((fun _ : Fl => Fl.nonfin) Fl.nonfin = Fl.nonfin) ∧
    (V3.mk 0 0 1 ≠ ⟨0, 0, 0⟩) ∧
    tangent_raw (divS ⟨0, 0, 1⟩ (sumsq ⟨0, 0, 1⟩)) ≠ ⟨0, 0, 0⟩ ∧
    magnetic_field_point (fun _ => Fl.nonfin) (fun _ => Fl.nonfin)
        ⟨0, 0, 1⟩ ⟨0, 0, 0⟩ 1 (Fl.nonfin, Fl.fin 0, Fl.fin 0) =
      (Fl.nonfin, Fl.nonfin, Fl.nonfin) := by
  have hn : V3.mk 0 0 1 ≠ ⟨0, 0, 0⟩ := by
    intro h
    injection h with h1 h2 h3
    exact one_ne_zero h3
  have hl : tangent_raw (divS ⟨0, 0, 1⟩ (sumsq ⟨0, 0, 1⟩)) ≠ ⟨0, 0, 0⟩ := by
    have h1 : divS ⟨0, 0, 1⟩ (sumsq ⟨0, 0, 1⟩) = ⟨0, 0, 1⟩ := by
      norm_num [divS, sumsq, V3.mk.injEq]
    rw [h1, tangent_raw, if_neg]
    · intro h
      injection h with h1 h2 h3
      exact one_ne_zero h2
    · norm_num
  exact ⟨rfl, hn, hl,
    nan_point_propagates (fun _ => Fl.nonfin) (fun _ => Fl.nonfin)
      ⟨0, 0, 1⟩ ⟨0, 0, 0⟩ 1 0 0 rfl rfl hn hl⟩

/-- Claim C9, counterexample to the claim as stated: a point set containing
the non-finite point `(nan, 0, 0)` does not make `field_of_loop` fail with
`InvalidInputError` — the source has no validation and the call returns a
value. -/
theorem nonfinite_input_not_rejected :
    field_of_loop (fun _ => Fl.nonfin) (fun _ => Fl.nonfin)
        [(Fl.nonfin, Fl.fin 0, Fl.fin 0)] ⟨1, ⟨0, 0, 0⟩, ⟨0, 0, 1⟩⟩ ≠
      Except.error FieldError.invalidInput := by
  intro h
  simp only [field_of_loop] at h
  exact Except.noConfusion h

/-- Claim C10: for an observation point lying exactly on the loop's wire
(local `rho = R` and local `z = 0`, with `R > 0`), the elliptic parameter is
exactly `1` — where `scipy`'s `K` is infinite (hypothesis `hK1`) — and the
divisions by `(R-rho)^2 + z^2 = 0` make both raw `Brho` and `Bz` non-finite,
so the substitution zeroes them and the program returns exactly the zero
vector at that point, rather than failing or returning an infinite field. -/
theorem on_wire_field_zero (E K : Fl → Fl) (n r0 p : V3) (R : ℝ)
    (hK1 : K (Fl.fin 1) = Fl.nonfin)
    (_hn : n ≠ ⟨0, 0, 0⟩)
    (_hl : tangent_raw (divS n (sumsq n)) ≠ ⟨0, 0, 0⟩)
    (hR : 0 < R)
    (hrho : Real.sqrt ((rowMul (p - r0) (inv3 (transOf n))).x *
          (rowMul (p - r0) (inv3 (transOf n))).x +
        (rowMul (p - r0) (inv3 (transOf n))).y *
          (rowMul (p - r0) (inv3 (transOf n))).y) = R)
    (hz : (rowMul (p - r0) (inv3 (transOf n))).z = 0) :
    ellipArg R (Fl.fin R) (Fl.fin 0) = Fl.fin 1 ∧
    magnetic_field_point E K n r0 R (finV3 p) =
      (Fl.fin 0, Fl.fin 0, Fl.fin 0) := by
  set q := rowMul (p - r0) (inv3 (transOf n)) with hqdef
  have hpos : (0 : ℝ) < (R + R) * (R + R) + 0 * 0 := by nlinarith
  have hXne : ((R + R) * (R + R) + 0 * 0 : ℝ) ≠ 0 := ne_of_gt hpos
  have hnotlt : ¬((R + R) * (R + R) + 0 * 0 < 0) := not_lt.mpr hpos.le
  have hsqrt_pos : 0 < Real.sqrt ((R + R) * (R + R) + 0 * 0) :=
    Real.sqrt_pos.mpr hpos
  have hs : Real.sqrt ((R + R) * (R + R) + 0 * 0) ≠ 0 := ne_of_gt hsqrt_pos
  have hRs : R * Real.sqrt ((R + R) * (R + R) + 0 * 0) ≠ 0 :=
    ne_of_gt (mul_pos hR hsqrt_pos)
  have hsub : ((R - R) * (R - R) + 0 * 0 : ℝ) = 0 := by ring
  have hm : ellipArg R (Fl.fin R) (Fl.fin 0) = Fl.fin 1 := by
    simp only [ellipArg, Fl.fin_mul_fin, Fl.fin_add_fin, Fl.fin_div_fin]
    rw [if_neg hXne]
    congr 1
    field_simp
    ring
  refine ⟨hm, ?_⟩
  have hBr : Fl.subst (Brho_raw E K R (Fl.fin R) (Fl.fin 0)) = Fl.fin 0 := by
    simp only [Brho_raw, hm, hK1, Fl.fin_add_fin, Fl.fin_mul_fin,
      Fl.fin_sub_fin, Fl.sqrtF_fin]
    rw [if_neg hnotlt, hsub]
    simp [hRs]
  have hBz : Fl.subst (Bz_raw E K R (Fl.fin R) (Fl.fin 0)) = Fl.fin 0 := by
    simp only [Bz_raw, hm, hK1, Fl.fin_add_fin, Fl.fin_mul_fin,
      Fl.fin_sub_fin, Fl.sqrtF_fin]
    rw [if_neg hnotlt, hsub]
    simp [hs]
  have hq : rowMulF (subFV3 (finV3 p) (finV3 r0)) (inv3 (transOf n)) =
      (Fl.fin q.x, Fl.fin q.y, Fl.fin 0) := by
    rw [subFV3_finV3, rowMulF_finV3, ← hqdef]
    simp only [finV3]
    rw [hz]
  rw [magnetic_field_point_eq, hq]
  simp only [localField_eq, Prod.fst, Prod.snd]
  have hrr : Fl.sqrtF (Fl.fin q.x * Fl.fin q.x + Fl.fin q.y * Fl.fin q.y) =
      Fl.fin R := by
    simp only [Fl.fin_mul_fin, Fl.fin_add_fin, Fl.sqrtF_fin]
    rw [if_neg (not_lt.mpr (add_nonneg (mul_self_nonneg q.x)
      (mul_self_nonneg q.y))), hrho]
  rw [hrr, hBr, hBz]
  have hth : ∃ a, theta_of (Fl.fin q.x) (Fl.fin q.y) = Fl.fin a := by
    by_cases hqy : q.y = 0
    · exact ⟨0, by simp [theta_of, hqy]⟩
    · exact ⟨Real.arctan (q.x / q.y), by simp [theta_of, hqy]⟩
  obtain ⟨a, hth⟩ := hth
  rw [hth]
  norm_num [rowMulF, Prod.mk.injEq]

/-- Claim C10, witness: for the unit loop at the origin with normal `(0,0,1)`
the point `(1,0,0)` lies on the wire (local `rho = 1 = R`, local `z = 0`);
the hypotheses hold for the library with `K(1) = inf`, and the conclusion
evaluates. -/
theorem on_wire_field_zero_witness :
    ((fun _ : Fl => Fl.nonfin) (Fl.fin 1) = Fl.nonfin) ∧
    (V3.mk 0 0 1 ≠ ⟨0, 0, 0⟩) ∧
    tangent_raw (divS ⟨0, 0, 1⟩ (sumsq ⟨0, 0, 1⟩)) ≠ ⟨0, 0, 0⟩ ∧
    (0 : ℝ) < 1 ∧
    Real.sqrt ((rowMul (V3.mk 1 0 0 - ⟨0, 0, 0⟩) (inv3 (transOf ⟨0, 0, 1⟩))).x *
        (rowMul (V3.mk 1 0 0 - ⟨0, 0, 0⟩) (inv3 (transOf ⟨0, 0, 1⟩))).x +
      (rowMul (V3.mk 1 0 0 - ⟨0, 0, 0⟩) (inv3 (transOf ⟨0, 0, 1⟩))).y *
        (rowMul (V3.mk 1 0 0 - ⟨0, 0, 0⟩) (inv3 (transOf ⟨0, 0, 1⟩))).y) = 1 ∧
    (rowMul (V3.mk 1 0 0 - ⟨0, 0, 0⟩) (inv3 (transOf ⟨0, 0, 1⟩))).z = 0 ∧
    (ellipArg 1 (Fl.fin 1) (Fl.fin 0) = Fl.fin 1 ∧
     magnetic_field_point (fun _ => Fl.nonfin) (fun _ => Fl.nonfin)
        ⟨0, 0, 1⟩ ⟨0, 0, 0⟩ 1 (finV3 ⟨1, 0, 0⟩) =
      (Fl.fin 0, Fl.fin 0, Fl.fin 0)) := by
  have hn : V3.mk 0 0 1 ≠ ⟨0, 0, 0⟩ := by
    intro h
    injection h with h1 h2 h3
    exact one_ne_zero h3
  have hl : tangent_raw (divS ⟨0, 0, 1⟩ (sumsq ⟨0, 0, 1⟩)) ≠ ⟨0, 0, 0⟩ := by
    have h1 : divS ⟨0, 0, 1⟩ (sumsq ⟨0, 0, 1⟩) = ⟨0, 0, 1⟩ := by
      norm_num [divS, sumsq, V3.mk.injEq]
    rw [h1, tangent_raw, if_neg]
    · intro h
      injection h with h1 h2 h3
      exact one_ne_zero h2
    · norm_num
  have hrho : Real.sqrt
      ((rowMul (V3.mk 1 0 0 - ⟨0, 0, 0⟩) (inv3 (transOf ⟨0, 0, 1⟩))).x *
        (rowMul (V3.mk 1 0 0 - ⟨0, 0, 0⟩) (inv3 (transOf ⟨0, 0, 1⟩))).x +
      (rowMul (V3.mk 1 0 0 - ⟨0, 0, 0⟩) (inv3 (transOf ⟨0, 0, 1⟩))).y *
        (rowMul (V3.mk 1 0 0 - ⟨0, 0, 0⟩) (inv3 (transOf ⟨0, 0, 1⟩))).y) = 1 := by
    rw [inv3_unitZ]
    norm_num [rowMul, Real.sqrt_one]
  have hz : (rowMul (V3.mk 1 0 0 - ⟨0, 0, 0⟩) (inv3 (transOf ⟨0, 0, 1⟩))).z = 0 := by
    rw [inv3_unitZ]
    norm_num [rowMul]
  exact ⟨rfl, hn, hl, one_pos, hrho, hz,
    on_wire_field_zero (fun _ => Fl.nonfin) (fun _ => Fl.nonfin)
      ⟨0, 0, 1⟩ ⟨0, 0, 0⟩ ⟨1, 0, 0⟩ 1 rfl hn hl one_pos hrho hz⟩
